import Mathlib

/-!
Verification of the height-indexed frontier queue (`HeightQueue`) and the
two-queue height synchronizer (`match_heights`) from `src/lib/hqueue.rs`.

Node handles (`NodeId<U>` in the source) are modelled as `Nat`; the arena
collaborator is modelled as a pair of pure lookup functions (`height`,
`children`), since the queue only ever reads those two things from it.
Heights are `u32` in the source but the queue performs no arithmetic on
them (only comparisons), so `Nat` is a faithful model.  The `Vec` backing
the queue is modelled as a `List` whose head is index 0 and whose last
element is the tail of the `Vec` (the end that `Vec::pop` removes).
-/

/-- `PriorityNodeId` from the source: a node handle paired with its cached
height.  Equality is field-wise, as derived by `#[derive(Eq, PartialEq)]`. -/
structure PriorityNodeId where
  index : Nat
  height : Nat
deriving DecidableEq, Repr

/-- The arena collaborator: the two read-only lookups the queue uses. -/
structure Arena where
  height : Nat → Nat
  children : Nat → List Nat

/-- `HeightQueue`: a sequence of prioritized entries, kept sorted ascending
by height by `push`. -/
structure HeightQueue where
  queue : List PriorityNodeId
deriving DecidableEq, Repr

/-- `HeightQueue::new` — the empty queue. -/
def HeightQueue.new : HeightQueue := ⟨[]⟩

/-- `HeightQueue::clear` — remove all entries. -/
def HeightQueue.clear (_q : HeightQueue) : HeightQueue := ⟨[]⟩

/-- `HeightQueue::is_empty`. -/
def HeightQueue.is_empty (q : HeightQueue) : Bool := q.queue.isEmpty

/-- `HeightQueue::size`. -/
def HeightQueue.size (q : HeightQueue) : Nat := q.queue.length

/-- `HeightQueue::peek_max` — height of the last (tallest) entry, if any. -/
def HeightQueue.peek_max (q : HeightQueue) : Option Nat :=
  q.queue.getLast?.map fun e => e.height

/-- `HeightQueue::pop` — repeatedly remove entries from the tail while their
height equals the pre-pop maximum, collecting their handles in pop order.
Returns the collected handles together with the remaining queue. -/
def HeightQueue.pop (q : HeightQueue) : List Nat × HeightQueue :=
  match q.queue.getLast? with
  | none => ([], q)
  | some last =>
      ((q.queue.reverse.takeWhile fun e => e.height == last.height).map fun e => e.index,
       ⟨(q.queue.reverse.dropWhile fun e => e.height == last.height).reverse⟩)

/-- The middle-insertion loop of `HeightQueue::push` (case 4): scan adjacent
pairs from the left and insert the new node at the first boundary where the
left neighbour's height is `≤` the new height and the right neighbour's is
`>` it; if no boundary is found the sequence is returned unchanged (the
loop falls through without inserting). -/
def insertMiddle (h : Nat) (nn : PriorityNodeId) : List PriorityNodeId → List PriorityNodeId
  | a :: b :: rest =>
      if a.height ≤ h ∧ b.height > h then a :: nn :: b :: rest
      else a :: insertMiddle h nn (b :: rest)
  | l => l

/-- `HeightQueue::push` — no-op when the (handle, height) pair is already
present; otherwise insert at the front (new node shortest), at the back
(new node tallest), or in the middle at a height boundary. -/
def HeightQueue.push (q : HeightQueue) (index : Nat) (arena : Arena) : HeightQueue :=
  let height := arena.height index
  let new_node : PriorityNodeId := ⟨index, height⟩
  if new_node ∈ q.queue then q
  else
    match q.queue with
    | [] => ⟨[new_node]⟩
    | first :: rest =>
      if height ≤ first.height then ⟨new_node :: first :: rest⟩
      else if height ≥ (List.getLastD rest first).height then ⟨(first :: rest) ++ [new_node]⟩
      else ⟨insertMiddle height new_node (first :: rest)⟩

/-- `HeightQueue::push_children` — push every child of `parent`. -/
def HeightQueue.push_children (q : HeightQueue) (parent : Nat) (arena : Arena) : HeightQueue :=
  (arena.children parent).foldl (fun acc child => acc.push child arena) q

/-- `HeightQueue::pop_and_push_children` — pop the tallest tier, push the
children of every popped node, and return the popped handles (`none` when
the queue was empty). -/
def HeightQueue.pop_and_push_children (q : HeightQueue) (arena : Arena) :
    Option (List Nat) × HeightQueue :=
  let tallest := (q.pop).1
  if tallest.isEmpty then (none, (q.pop).2)
  else (some tallest, tallest.foldl (fun acc n => acc.push_children n arena) (q.pop).2)

/-- `match_heights`, made total with an explicit fuel parameter: the source
is a `while` loop that runs while both queues are non-empty and their maxima
differ, expanding whichever side has the strictly greater maximum.  One fuel
unit is consumed per loop iteration; `none` means the fuel ran out before
the loop condition failed.  (`unwrap()` on the maxima is modelled by
`Option.getD 0`; it is only reached when both queues are non-empty, where
the two agree.) -/
def match_heights (sa da : Arena) : Nat → HeightQueue → HeightQueue →
    Option (HeightQueue × HeightQueue)
  | fuel, sq, dq =>
    if sq.is_empty ∨ dq.is_empty ∨ sq.peek_max = dq.peek_max then some (sq, dq)
    else
      match fuel with
      | 0 => none
      | f + 1 =>
        if sq.peek_max.getD 0 > dq.peek_max.getD 0 then
          match_heights sa da f (sq.pop_and_push_children sa).2 dq
        else
          match_heights sa da f sq (dq.pop_and_push_children da).2

/-- One guarded iteration of the `match_heights` loop, as a state
transformer on the pair of queues (identity when the loop condition fails).
Used to state trace properties of the loop. -/
def mhOnce (sa da : Arena) (s : HeightQueue × HeightQueue) : HeightQueue × HeightQueue :=
  if s.1.is_empty ∨ s.2.is_empty ∨ s.1.peek_max = s.2.peek_max then s
  else if s.1.peek_max.getD 0 > s.2.peek_max.getD 0 then
    ((s.1.pop_and_push_children sa).2, s.2)
  else
    (s.1, (s.2.pop_and_push_children da).2)

/-- `n` guarded iterations of the `match_heights` loop. -/
def mhIter (sa da : Arena) : Nat → HeightQueue × HeightQueue → HeightQueue × HeightQueue
  | 0, s => s
  | n + 1, s => mhOnce sa da (mhIter sa da n s)

/-- Repeatedly call `pop` (no interleaved pushes), recording before each
call the pre-pop maximum (`peek_max`) together with the popped tier, until
the queue is empty.  Fuelled by the number of calls; `q.size` calls always
suffice because each pop on a non-empty queue removes at least one entry. -/
def popTiersAux : Nat → HeightQueue → List (Nat × List Nat)
  | 0, _ => []
  | fuel + 1, q =>
    if q.queue = [] then []
    else (q.peek_max.getD 0, (q.pop).1) :: popTiersAux fuel (q.pop).2

/-- All tiers obtained by repeatedly popping `q` until empty. -/
def popTiers (q : HeightQueue) : List (Nat × List Nat) := popTiersAux q.size q

/-- A small concrete arena for instance checks: node 0 has the single child
1 and height 1; every other node is a leaf of height 0.  It satisfies the
spec's height equation. -/
def aW : Arena := ⟨fun n => if n = 0 then 1 else 0, fun n => if n = 0 then [1] else []⟩

/-- A small concrete sorted, duplicate-free queue for instance checks. -/
def qW : HeightQueue := ⟨[⟨5, 0⟩, ⟨1, 2⟩, ⟨2, 2⟩]⟩

/-- A concrete queue whose cached heights agree with `aW`. -/
def qA : HeightQueue := ⟨[⟨3, 0⟩, ⟨0, 1⟩]⟩

/-- A concrete single-leaf queue whose cached heights agree with `aW`. -/
def qB : HeightQueue := ⟨[⟨1, 0⟩]⟩

/-- Sortedness invariant: entry heights are pairwise non-decreasing from
front to back. -/
def SortedQ (q : HeightQueue) : Prop :=
  q.queue.Pairwise fun x y => x.height ≤ y.height

/-- Cache-consistency: every entry's cached height is the arena height of
its handle (true of any queue populated through `push` with a stable
arena, since `push` caches `index.height(arena)` at insertion time). -/
def Consistent (a : Arena) (q : HeightQueue) : Prop :=
  ∀ e ∈ q.queue, e.height = a.height e.index

/-- The height contract the spec assumes of the arena: a node's height is
`0` for a leaf and `1 + max(children's heights)` otherwise (expressed as a
fold so it also covers the leaf case). -/
def Arena.consistent (a : Arena) : Prop :=
  ∀ n, a.height n = ((a.children n).map fun c => a.height c + 1).foldr max 0

/-- Weaker arena hypothesis: every child is strictly shorter than its
parent. -/
def Arena.childLt (a : Arena) : Prop :=
  ∀ n c, c ∈ a.children n → a.height c < a.height n

/-- Queue states reachable from the empty queue by any sequence of queue
operations over a fixed arena. -/
inductive Reachable (a : Arena) : HeightQueue → Prop
  | base : Reachable a HeightQueue.new
  | push (q : HeightQueue) (idx : Nat) : Reachable a q → Reachable a (q.push idx a)
  | push_children (q : HeightQueue) (n : Nat) :
      Reachable a q → Reachable a (q.push_children n a)
  | pop (q : HeightQueue) : Reachable a q → Reachable a (q.pop).2
  | pop_push (q : HeightQueue) :
      Reachable a q → Reachable a (q.pop_and_push_children a).2
  | clear (q : HeightQueue) : Reachable a q → Reachable a q.clear

/-- Queue states reachable from the empty queue by pushes alone, over a
fixed arena. -/
inductive PushReachable (a : Arena) : HeightQueue → Prop
  | base : PushReachable a HeightQueue.new
  | push (q : HeightQueue) (idx : Nat) :
      PushReachable a q → PushReachable a (q.push idx a)

lemma is_empty_false_iff (q : HeightQueue) : q.is_empty = false ↔ q.queue ≠ [] := by
  simp [HeightQueue.is_empty]

lemma is_empty_true_iff (q : HeightQueue) : q.is_empty = true ↔ q.queue = [] := by
  simp [HeightQueue.is_empty]

lemma mem_of_getLast?_eq {α : Type} {l : List α} {x : α} (h : l.getLast? = some x) :
    x ∈ l := by
  rw [List.getLast?_eq_some_iff] at h
  obtain ⟨ys, rfl⟩ := h
  simp

lemma peek_max_eq_some_iff {q : HeightQueue} {m : Nat} :
    q.peek_max = some m ↔ ∃ x, q.queue.getLast? = some x ∧ x.height = m := by
  simp [HeightQueue.peek_max]

lemma peek_max_eq_none_iff {q : HeightQueue} : q.peek_max = none ↔ q.queue = [] := by
  cases hq : q.queue with
  | nil => simp [HeightQueue.peek_max, hq]
  | cons a t =>
    simp only [HeightQueue.peek_max, hq]
    constructor
    · intro h
      exfalso
      cases hx : (a :: t).getLast? with
      | none =>
        rw [← List.head?_reverse] at hx
        cases hr : (a :: t).reverse with
        | nil => exact absurd (List.reverse_eq_nil_iff.1 hr) (by simp)
        | cons b r => rw [hr] at hx; simp at hx
      | some x => rw [hx] at h; simp at h
    · intro h; simp at h

lemma sorted_height_le_getLast {q : HeightQueue} (hs : SortedQ q) {x : PriorityNodeId}
    (h : q.queue.getLast? = some x) : ∀ e ∈ q.queue, e.height ≤ x.height := by
  rw [List.getLast?_eq_some_iff] at h
  obtain ⟨ys, hys⟩ := h
  unfold SortedQ at hs
  rw [hys] at hs
  intro e he
  rw [hys] at he
  rcases List.mem_append.1 he with h1 | h1
  · exact (List.pairwise_append.1 hs).2.2 e h1 x (by simp)
  · simp at h1; subst h1; exact le_refl _

lemma sorted_bound_of_peek {q : HeightQueue} (hs : SortedQ q) {m : Nat}
    (h : q.peek_max = some m) : ∀ e ∈ q.queue, e.height ≤ m := by
  obtain ⟨x, hx, hxm⟩ := peek_max_eq_some_iff.1 h
  intro e he
  exact hxm ▸ sorted_height_le_getLast hs hx e he

lemma peek_max_attained {q : HeightQueue} {m : Nat} (h : q.peek_max = some m) :
    ∃ e ∈ q.queue, e.height = m := by
  obtain ⟨x, hx, hxm⟩ := peek_max_eq_some_iff.1 h
  exact ⟨x, mem_of_getLast?_eq hx, hxm⟩

lemma peek_max_of_bounds {q : HeightQueue} (hs : SortedQ q) {k : Nat}
    (hmem : ∃ e ∈ q.queue, e.height = k) (hb : ∀ e ∈ q.queue, e.height ≤ k) :
    q.peek_max = some k := by
  have hne : q.queue ≠ [] := by
    obtain ⟨e, he, _⟩ := hmem
    intro h; rw [h] at he; simp at he
  cases hx : q.queue.getLast? with
  | none =>
    exfalso
    have := List.getLast?_isSome.2 hne
    rw [hx] at this; simp at this
  | some x =>
    rw [peek_max_eq_some_iff]
    refine ⟨x, hx, ?_⟩
    obtain ⟨e, he, hek⟩ := hmem
    have h1 : e.height ≤ x.height := sorted_height_le_getLast hs hx e he
    have h2 : x.height ≤ k := hb x (mem_of_getLast?_eq hx)
    omega

lemma takeWhile_filter_anti (m : Nat) :
    ∀ r : List PriorityNodeId, (r.Pairwise fun x y => y.height ≤ x.height) →
    (∀ e ∈ r, e.height ≤ m) →
    (r.takeWhile fun e => e.height == m) = r.filter (fun e => e.height == m) ∧
    (r.dropWhile fun e => e.height == m) = r.filter fun e => !(e.height == m) := by
  intro r
  induction r with
  | nil => intro _ _; simp
  | cons a t ih =>
    intro hp hb
    rw [List.pairwise_cons] at hp
    by_cases ha : a.height = m
    · have hbeq : (a.height == m) = true := by simp [ha]
      have hi := ih hp.2 fun e he => hb e (List.mem_cons_of_mem _ he)
      constructor
      · simp only [List.takeWhile_cons, List.filter_cons, hbeq, if_pos]
        rw [hi.1]
      · simp only [List.dropWhile_cons, List.filter_cons, hbeq]
        simpa using hi.2
    · have hbeq : (a.height == m) = false := by simp [ha]
      have halt : a.height < m :=
        lt_of_le_of_ne (hb a (List.mem_cons_self a t)) ha
      have htnil : t.filter (fun e => e.height == m) = [] := by
        rw [List.filter_eq_nil_iff]
        intro e he
        have h2 : e.height ≤ a.height := hp.1 e he
        simp; omega
      have htall : t.filter (fun e => !(e.height == m)) = t := by
        rw [List.filter_eq_self]
        intro e he
        have h2 : e.height ≤ a.height := hp.1 e he
        simp; omega
      constructor
      · simp only [List.takeWhile_cons, List.filter_cons, hbeq]
        simp [htnil]
      · simp only [List.dropWhile_cons, List.filter_cons, hbeq]
        simp [htall]

lemma pop_empty {q : HeightQueue} (h : q.queue = []) : q.pop = ([], q) := by
  unfold HeightQueue.pop
  rw [h]
  rfl

lemma pop_spec {q : HeightQueue} (hs : SortedQ q) {m : Nat} (hm : q.peek_max = some m) :
    (q.pop).1 = ((q.queue.filter fun e => e.height == m).reverse.map fun e => e.index) ∧
    (q.pop).2.queue = q.queue.filter fun e => !(e.height == m) := by
  obtain ⟨x, hx, hxm⟩ := peek_max_eq_some_iff.1 hm
  have hanti : q.queue.reverse.Pairwise fun a b => b.height ≤ a.height :=
    List.pairwise_reverse.2 hs
  have hb : ∀ e ∈ q.queue.reverse, e.height ≤ m := fun e he =>
    sorted_bound_of_peek hs hm e (List.mem_reverse.1 he)
  have h2 := takeWhile_filter_anti m q.queue.reverse hanti hb
  unfold HeightQueue.pop
  rw [hx]
  simp only [hxm]
  constructor
  · simp only [h2.1, List.filter_reverse]
  · simp only [h2.2, List.filter_reverse, List.reverse_reverse]

lemma pop_rest_sublist (q : HeightQueue) : (q.pop).2.queue.Sublist q.queue := by
  unfold HeightQueue.pop
  cases hx : q.queue.getLast? with
  | none => exact List.Sublist.refl _
  | some last =>
    simp only
    have h1 := List.dropWhile_sublist (l := q.queue.reverse)
      fun e => e.height == last.height
    have h2 := h1.reverse
    rwa [List.reverse_reverse] at h2

lemma pop_rest_sorted {q : HeightQueue} (hs : SortedQ q) : SortedQ (q.pop).2 :=
  List.Pairwise.sublist (pop_rest_sublist q) hs

lemma pop_rest_consistent {a : Arena} {q : HeightQueue} (hc : Consistent a q) :
    Consistent a (q.pop).2 := fun e he => hc e (List.Sublist.mem he (pop_rest_sublist q))

lemma reverse_cons_of_getLast {q : HeightQueue} {x : PriorityNodeId}
    (hx : q.queue.getLast? = some x) :
    ∃ t, q.queue.reverse = x :: t := by
  cases hr : q.queue.reverse with
  | nil =>
    exfalso
    have : q.queue = [] := by
      have := congrArg List.reverse hr
      rwa [List.reverse_reverse] at this
    rw [this] at hx; simp at hx
  | cons b t =>
    have hh : q.queue.reverse.head? = some x := by rw [List.head?_reverse]; exact hx
    rw [hr] at hh
    simp at hh
    subst hh
    exact ⟨t, hr ▸ rfl⟩

lemma pop_rest_length_lt {q : HeightQueue} (hne : q.queue ≠ []) :
    (q.pop).2.queue.length < q.queue.length := by
  cases hx : q.queue.getLast? with
  | none =>
    exact absurd (List.getLast?_isSome.2 hne) (by rw [hx]; simp)
  | some last =>
    obtain ⟨t, ht⟩ := reverse_cons_of_getLast hx
    unfold HeightQueue.pop
    rw [hx]
    simp only
    rw [ht]
    have hplast : (last.height == last.height) = true := by simp
    rw [List.dropWhile_cons, hplast]
    simp only [if_pos trivial, List.length_reverse]
    have h1 : (t.dropWhile fun e => e.height == last.height).length ≤ t.length :=
      (List.dropWhile_sublist _).length_le
    have h2 : q.queue.length = t.length + 1 := by
      have := congrArg List.length ht
      simp at this
      omega
    omega

lemma pop_fst_ne_nil {q : HeightQueue} (hne : q.queue ≠ []) : (q.pop).1 ≠ [] := by
  cases hx : q.queue.getLast? with
  | none =>
    exact absurd (List.getLast?_isSome.2 hne) (by rw [hx]; simp)
  | some last =>
    obtain ⟨t, ht⟩ := reverse_cons_of_getLast hx
    unfold HeightQueue.pop
    rw [hx]
    simp only
    rw [ht]
    have hplast : (last.height == last.height) = true := by simp
    rw [List.takeWhile_cons, hplast]
    simp

lemma insertMiddle_eq_or_mem (h : Nat) (nn : PriorityNodeId) :
    ∀ l : List PriorityNodeId, insertMiddle h nn l = l ∨ nn ∈ insertMiddle h nn l := by
  intro l
  induction l with
  | nil => left; rfl
  | cons a t ih =>
    cases t with
    | nil => left; rfl
    | cons b r =>
      by_cases hc : a.height ≤ h ∧ b.height > h
      · right; simp [insertMiddle, hc]
      · rcases ih with h1 | h1
        · left; simp only [insertMiddle, if_neg hc]; rw [h1]
        · right; simp only [insertMiddle, if_neg hc]; exact List.mem_cons_of_mem _ h1

lemma insertMiddle_subset {h : Nat} {nn e : PriorityNodeId} :
    ∀ l : List PriorityNodeId, e ∈ insertMiddle h nn l → e = nn ∨ e ∈ l := by
  intro l
  induction l with
  | nil => intro he; right; exact he
  | cons a t ih =>
    cases t with
    | nil => intro he; right; exact he
    | cons b r =>
      intro he
      by_cases hc : a.height ≤ h ∧ b.height > h
      · simp only [insertMiddle, if_pos hc] at he
        rcases List.mem_cons.1 he with rfl | he
        · right; simp
        · rcases List.mem_cons.1 he with rfl | he
          · left; rfl
          · right; exact List.mem_cons_of_mem _ he
      · simp only [insertMiddle, if_neg hc] at he
        rcases List.mem_cons.1 he with rfl | he
        · right; simp
        · rcases ih he with h1 | h1
          · left; exact h1
          · right; exact List.mem_cons_of_mem _ h1

lemma insertMiddle_superset {h : Nat} {nn e : PriorityNodeId} :
    ∀ l : List PriorityNodeId, e ∈ l → e ∈ insertMiddle h nn l := by
  intro l
  induction l with
  | nil => intro he; exact he
  | cons a t ih =>
    cases t with
    | nil => intro he; exact he
    | cons b r =>
      intro he
      by_cases hc : a.height ≤ h ∧ b.height > h
      · simp only [insertMiddle, if_pos hc]
        rcases List.mem_cons.1 he with rfl | he
        · simp
        · simp [he]
      · simp only [insertMiddle, if_neg hc]
        rcases List.mem_cons.1 he with rfl | he
        · simp
        · exact List.mem_cons_of_mem _ (ih he)

lemma insertMiddle_spec {h : Nat} {nn : PriorityNodeId} :
    ∀ (t : List PriorityNodeId) (a : PriorityNodeId),
    ((a :: t).Pairwise fun x y => x.height ≤ y.height) →
    a.height ≤ h → (∀ x, (a :: t).getLast? = some x → h < x.height) →
    ∃ l1 l2, a :: t = l1 ++ l2 ∧ insertMiddle h nn (a :: t) = l1 ++ nn :: l2 ∧
      (∀ e ∈ l1, e.height ≤ h) ∧ (∀ e ∈ l2, h < e.height) := by
  intro t
  induction t with
  | nil =>
    intro a _ ha hlast
    exact absurd (hlast a rfl) (by omega)
  | cons b r ih =>
    intro a hp ha hlast
    by_cases hc : b.height > h
    · refine ⟨[a], b :: r, rfl, ?_, ?_, ?_⟩
      · simp [insertMiddle, ha, hc]
      · intro e he; simp at he; subst he; exact ha
      · intro e he
        rcases List.mem_cons.1 he with rfl | he
        · exact hc
        · have hbr := (List.pairwise_cons.1 hp).2
          have h2 : b.height ≤ e.height := (List.pairwise_cons.1 hbr).1 e he
          omega
    · push_neg at hc
      have hp' := (List.pairwise_cons.1 hp).2
      have hlast' : ∀ x, (b :: r).getLast? = some x → h < x.height := by
        intro x hx
        exact hlast x (by rw [List.getLast?_cons_cons]; exact hx)
      obtain ⟨l1, l2, he1, he2, hb1, hb2⟩ := ih b hp' hc hlast'
      have hcond : ¬(a.height ≤ h ∧ b.height > h) := fun hx => absurd hx.2 (by omega)
      refine ⟨a :: l1, l2, by simp [← he1], ?_, ?_, hb2⟩
      · simp only [insertMiddle, if_neg hcond]
        rw [he2]
        rfl
      · intro e he
        rcases List.mem_cons.1 he with rfl | he
        · exact ha
        · exact hb1 e he

lemma push_mem_eq {q : HeightQueue} {idx : Nat} {a : Arena}
    (h : (⟨idx, a.height idx⟩ : PriorityNodeId) ∈ q.queue) : q.push idx a = q := by
  simp [HeightQueue.push, h]

lemma push_not_mem_cases {q : HeightQueue} {idx : Nat} {a : Arena}
    (hnot : (⟨idx, a.height idx⟩ : PriorityNodeId) ∉ q.queue) :
    (q.push idx a).queue =
      match q.queue with
      | [] => [⟨idx, a.height idx⟩]
      | first :: rest =>
        if a.height idx ≤ first.height then ⟨idx, a.height idx⟩ :: first :: rest
        else if a.height idx ≥ (List.getLastD rest first).height then
          (first :: rest) ++ [⟨idx, a.height idx⟩]
        else insertMiddle (a.height idx) ⟨idx, a.height idx⟩ (first :: rest) := by
  simp only [HeightQueue.push, if_neg hnot]
  cases q.queue with
  | nil => simp
  | cons first rest =>
    by_cases h1 : a.height idx ≤ first.height
    · simp [h1]
    · by_cases h2 : a.height idx ≥ (List.getLastD rest first).height
      all_goals
        simp only [List.getLastD_eq_getLast?] at h2
        simp [h1, h2]

lemma getLast?_cons_eq (first : PriorityNodeId) (rest : List PriorityNodeId) :
    (first :: rest).getLast? = some (List.getLastD rest first) := by
  rw [List.getLastD_eq_getLast?]
  induction rest generalizing first with
  | nil => rfl
  | cons b r ih =>
    rw [List.getLast?_cons_cons, ih b]
    simp

lemma push_queue_nil {q : HeightQueue} {a : Arena} {idx : Nat}
    (hnot : (⟨idx, a.height idx⟩ : PriorityNodeId) ∉ q.queue) (hq : q.queue = []) :
    (q.push idx a).queue = [⟨idx, a.height idx⟩] := by
  have hnot' : (⟨idx, a.height idx⟩ : PriorityNodeId) ∉ ([] : List PriorityNodeId) :=
    hq ▸ hnot
  simp only [HeightQueue.push, hq]
  rw [if_neg hnot']

lemma push_queue_front {q : HeightQueue} {a : Arena} {idx : Nat}
    {first : PriorityNodeId} {rest : List PriorityNodeId}
    (hnot : (⟨idx, a.height idx⟩ : PriorityNodeId) ∉ q.queue)
    (hq : q.queue = first :: rest) (h1 : a.height idx ≤ first.height) :
    (q.push idx a).queue = ⟨idx, a.height idx⟩ :: first :: rest := by
  have hnot' : (⟨idx, a.height idx⟩ : PriorityNodeId) ∉ first :: rest := hq ▸ hnot
  simp only [HeightQueue.push, hq]
  rw [if_neg hnot', if_pos h1]

lemma push_queue_back {q : HeightQueue} {a : Arena} {idx : Nat}
    {first : PriorityNodeId} {rest : List PriorityNodeId}
    (hnot : (⟨idx, a.height idx⟩ : PriorityNodeId) ∉ q.queue)
    (hq : q.queue = first :: rest) (h1 : ¬a.height idx ≤ first.height)
    (h2 : a.height idx ≥ (List.getLastD rest first).height) :
    (q.push idx a).queue = (first :: rest) ++ [⟨idx, a.height idx⟩] := by
  have hnot' : (⟨idx, a.height idx⟩ : PriorityNodeId) ∉ first :: rest := hq ▸ hnot
  simp only [HeightQueue.push, hq]
  rw [if_neg hnot', if_neg h1, if_pos h2]

lemma push_queue_mid {q : HeightQueue} {a : Arena} {idx : Nat}
    {first : PriorityNodeId} {rest : List PriorityNodeId}
    (hnot : (⟨idx, a.height idx⟩ : PriorityNodeId) ∉ q.queue)
    (hq : q.queue = first :: rest) (h1 : ¬a.height idx ≤ first.height)
    (h2 : ¬a.height idx ≥ (List.getLastD rest first).height) :
    (q.push idx a).queue = insertMiddle (a.height idx) ⟨idx, a.height idx⟩ (first :: rest) := by
  have hnot' : (⟨idx, a.height idx⟩ : PriorityNodeId) ∉ first :: rest := hq ▸ hnot
  simp only [HeightQueue.push, hq]
  rw [if_neg hnot', if_neg h1, if_neg h2]

lemma push_spec {q : HeightQueue} {a : Arena} {idx : Nat} (hs : SortedQ q)
    (hnot : (⟨idx, a.height idx⟩ : PriorityNodeId) ∉ q.queue) :
    ∃ l1 l2, q.queue = l1 ++ l2 ∧
      (q.push idx a).queue = l1 ++ ⟨idx, a.height idx⟩ :: l2 ∧
      (∀ e ∈ l1, e.height ≤ a.height idx) ∧ (∀ e ∈ l2, a.height idx ≤ e.height) := by
  unfold SortedQ at hs
  cases hq : q.queue with
  | nil =>
    exact ⟨[], [], rfl, by rw [push_queue_nil hnot hq]; rfl, by simp, by simp⟩
  | cons first rest =>
    rw [hq] at hs
    by_cases h1 : a.height idx ≤ first.height
    · refine ⟨[], first :: rest, rfl, by rw [push_queue_front hnot hq h1]; rfl, by simp, ?_⟩
      intro e he
      rcases List.mem_cons.1 he with rfl | he
      · exact h1
      · have h2 : first.height ≤ e.height := (List.pairwise_cons.1 hs).1 e he
        omega
    · by_cases h2 : a.height idx ≥ (List.getLastD rest first).height
      · refine ⟨first :: rest, [], by simp,
          by rw [push_queue_back hnot hq h1 h2], ?_, by simp⟩
        intro e he
        have h3 : e.height ≤ (List.getLastD rest first).height :=
          sorted_height_le_getLast (q := ⟨first :: rest⟩) hs
            (getLast?_cons_eq first rest) e he
        omega
      · have hfirst : first.height ≤ a.height idx := by omega
        have hlast : ∀ x, (first :: rest).getLast? = some x → a.height idx < x.height := by
          intro x hx
          rw [getLast?_cons_eq first rest] at hx
          have h3 := Option.some.inj hx
          subst h3
          omega
        obtain ⟨l1, l2, he1, he2, hb1, hb2⟩ :=
          @insertMiddle_spec (a.height idx) ⟨idx, a.height idx⟩ rest first hs hfirst hlast
        refine ⟨l1, l2, he1, by rw [push_queue_mid hnot hq h1 h2, he2], hb1, ?_⟩
        intro e he
        exact le_of_lt (hb2 e he)

lemma push_sorted {q : HeightQueue} {a : Arena} {idx : Nat} (hs : SortedQ q) :
    SortedQ (q.push idx a) := by
  by_cases hmem : (⟨idx, a.height idx⟩ : PriorityNodeId) ∈ q.queue
  · rw [push_mem_eq hmem]; exact hs
  · obtain ⟨l1, l2, he1, he2, hb1, hb2⟩ := push_spec hs hmem
    unfold SortedQ at hs ⊢
    rw [he1] at hs
    rw [he2, List.pairwise_append]
    rw [List.pairwise_append] at hs
    refine ⟨hs.1, ?_, ?_⟩
    · rw [List.pairwise_cons]
      exact ⟨fun e he => hb2 e he, hs.2.1⟩
    · intro x hx y hy
      rcases List.mem_cons.1 hy with rfl | hy
      · exact hb1 x hx
      · exact hs.2.2 x hx y hy

lemma push_perm {q : HeightQueue} {a : Arena} {idx : Nat} (hs : SortedQ q)
    (hnot : (⟨idx, a.height idx⟩ : PriorityNodeId) ∉ q.queue) :
    (q.push idx a).queue.Perm (⟨idx, a.height idx⟩ :: q.queue) := by
  obtain ⟨l1, l2, he1, he2, _, _⟩ := push_spec hs hnot
  rw [he1, he2]
  exact List.perm_middle

lemma push_size {q : HeightQueue} {a : Arena} {idx : Nat} (hs : SortedQ q)
    (hnot : (⟨idx, a.height idx⟩ : PriorityNodeId) ∉ q.queue) :
    (q.push idx a).size = q.size + 1 := by
  have h := (push_perm hs hnot).length_eq
  simp only [List.length_cons] at h
  exact h

lemma push_subset {q : HeightQueue} {a : Arena} {idx : Nat} {e : PriorityNodeId}
    (he : e ∈ (q.push idx a).queue) :
    e = ⟨idx, a.height idx⟩ ∨ e ∈ q.queue := by
  by_cases hmem : (⟨idx, a.height idx⟩ : PriorityNodeId) ∈ q.queue
  · rw [push_mem_eq hmem] at he; right; exact he
  · cases hq : q.queue with
    | nil =>
      rw [push_queue_nil hmem hq] at he
      simp at he
      left; exact he
    | cons first rest =>
      by_cases h1 : a.height idx ≤ first.height
      · rw [push_queue_front hmem hq h1] at he
        rcases List.mem_cons.1 he with rfl | he
        · left; rfl
        · right; exact he
      · by_cases h2 : a.height idx ≥ (List.getLastD rest first).height
        · rw [push_queue_back hmem hq h1 h2] at he
          rcases List.mem_append.1 he with he | he
          · right; exact he
          · left; simpa using he
        · rw [push_queue_mid hmem hq h1 h2] at he
          rcases insertMiddle_subset _ he with h3 | h3
          · left; exact h3
          · right; exact h3

lemma push_superset {q : HeightQueue} {a : Arena} {idx : Nat} {e : PriorityNodeId}
    (he : e ∈ q.queue) : e ∈ (q.push idx a).queue := by
  by_cases hmem : (⟨idx, a.height idx⟩ : PriorityNodeId) ∈ q.queue
  · rw [push_mem_eq hmem]; exact he
  · cases hq : q.queue with
    | nil => rw [hq] at he; simp at he
    | cons first rest =>
      rw [hq] at he
      by_cases h1 : a.height idx ≤ first.height
      · rw [push_queue_front hmem hq h1]
        exact List.mem_cons_of_mem _ he
      · by_cases h2 : a.height idx ≥ (List.getLastD rest first).height
        · rw [push_queue_back hmem hq h1 h2]
          exact List.mem_append_left _ he
        · rw [push_queue_mid hmem hq h1 h2]
          exact insertMiddle_superset _ he

lemma push_self_mem {q : HeightQueue} {a : Arena} {idx : Nat} (hs : SortedQ q) :
    (⟨idx, a.height idx⟩ : PriorityNodeId) ∈ (q.push idx a).queue := by
  by_cases hmem : (⟨idx, a.height idx⟩ : PriorityNodeId) ∈ q.queue
  · rw [push_mem_eq hmem]; exact hmem
  · obtain ⟨l1, l2, _, he2, _, _⟩ := push_spec hs hmem
    rw [he2]
    exact List.mem_append_right _ (List.mem_cons_self _ _)

lemma push_eq_self_or_mem (q : HeightQueue) (idx : Nat) (a : Arena) :
    q.push idx a = q ∨ (⟨idx, a.height idx⟩ : PriorityNodeId) ∈ (q.push idx a).queue := by
  by_cases hmem : (⟨idx, a.height idx⟩ : PriorityNodeId) ∈ q.queue
  · left; exact push_mem_eq hmem
  · cases hq : q.queue with
    | nil => right; rw [push_queue_nil hmem hq]; simp
    | cons first rest =>
      by_cases h1 : a.height idx ≤ first.height
      · right; rw [push_queue_front hmem hq h1]; simp
      · by_cases h2 : a.height idx ≥ (List.getLastD rest first).height
        · right; rw [push_queue_back hmem hq h1 h2]; simp
        · rcases insertMiddle_eq_or_mem (a.height idx) ⟨idx, a.height idx⟩
            (first :: rest) with h3 | h3
          · left
            have h4 : (q.push idx a).queue = q.queue := by
              rw [push_queue_mid hmem hq h1 h2, h3, hq]
            calc q.push idx a = ⟨(q.push idx a).queue⟩ := rfl
              _ = ⟨q.queue⟩ := by rw [h4]
              _ = q := rfl
          · right; rw [push_queue_mid hmem hq h1 h2]; exact h3

lemma push_idem (q : HeightQueue) (idx : Nat) (a : Arena) :
    (q.push idx a).push idx a = q.push idx a := by
  rcases push_eq_self_or_mem q idx a with he | hm
  · rw [he]; exact he
  · exact push_mem_eq hm

lemma push_consistent {q : HeightQueue} {a : Arena} {idx : Nat}
    (hc : Consistent a q) : Consistent a (q.push idx a) := by
  intro e he
  rcases push_subset he with rfl | he'
  · rfl
  · exact hc e he'

lemma push_heightP {q : HeightQueue} {a : Arena} {idx : Nat} {P : Nat → Prop}
    (hb : ∀ e ∈ q.queue, P e.height) (hk : P (a.height idx)) :
    ∀ e ∈ (q.push idx a).queue, P e.height := by
  intro e he
  rcases push_subset he with rfl | he'
  · exact hk
  · exact hb e he'

lemma foldl_pres {α : Type} {f : HeightQueue → α → HeightQueue} {P : HeightQueue → Prop} :
    ∀ (cs : List α) (q : HeightQueue), (∀ q' c, c ∈ cs → P q' → P (f q' c)) → P q →
    P (cs.foldl f q) := by
  intro cs
  induction cs with
  | nil => intro q _ hq; exact hq
  | cons c t ih =>
    intro q hstep hq
    exact ih (f q c) (fun q' c' hc' => hstep q' c' (List.mem_cons_of_mem _ hc'))
      (hstep q c (List.mem_cons_self _ _) hq)

lemma push_children_sorted {q : HeightQueue} {a : Arena} {n : Nat} (hs : SortedQ q) :
    SortedQ (q.push_children n a) :=
  foldl_pres _ q (fun _ _ _ h => push_sorted h) hs

lemma push_children_consistent {q : HeightQueue} {a : Arena} {n : Nat}
    (hc : Consistent a q) : Consistent a (q.push_children n a) :=
  foldl_pres _ q (fun _ _ _ h => push_consistent h) hc

lemma push_children_heightP {q : HeightQueue} {a : Arena} {n : Nat} {P : Nat → Prop}
    (hb : ∀ e ∈ q.queue, P e.height) (hcs : ∀ c ∈ a.children n, P (a.height c)) :
    ∀ e ∈ (q.push_children n a).queue, P e.height :=
  foldl_pres (P := fun q' => ∀ e ∈ q'.queue, P e.height) _ q
    (fun _ c hc hq => push_heightP hq (hcs c hc)) hb

lemma push_children_superset {q : HeightQueue} {a : Arena} {n : Nat} {e : PriorityNodeId}
    (he : e ∈ q.queue) : e ∈ (q.push_children n a).queue :=
  foldl_pres (P := fun q' => e ∈ q'.queue) _ q (fun _ _ _ h => push_superset h) he

lemma foldl_push_attains {a : Arena} :
    ∀ (cs : List Nat) (q : HeightQueue), SortedQ q → ∀ c ∈ cs,
    (⟨c, a.height c⟩ : PriorityNodeId) ∈
      (cs.foldl (fun acc c' => acc.push c' a) q).queue := by
  intro cs
  induction cs with
  | nil => intro q _ c hc; simp at hc
  | cons d t ih =>
    intro q hs c hc
    rcases List.mem_cons.1 hc with rfl | hc
    · exact foldl_pres (P := fun q' => (⟨c, a.height c⟩ : PriorityNodeId) ∈ q'.queue)
        t (q.push c a) (fun _ _ _ h => push_superset h) (push_self_mem hs)
    · exact ih (q.push d a) (push_sorted hs) c hc

lemma push_children_attains {q : HeightQueue} {a : Arena} {n c : Nat} (hs : SortedQ q)
    (hc : c ∈ a.children n) :
    (⟨c, a.height c⟩ : PriorityNodeId) ∈ (q.push_children n a).queue :=
  foldl_push_attains _ q hs c hc

lemma papc_empty {q : HeightQueue} {a : Arena} (h : q.queue = []) :
    q.pop_and_push_children a = (none, q) := by
  unfold HeightQueue.pop_and_push_children
  rw [pop_empty h]
  simp

lemma papc_nonempty {q : HeightQueue} {a : Arena} (h : q.queue ≠ []) :
    q.pop_and_push_children a =
      (some (q.pop).1,
       ((q.pop).1).foldl (fun acc n => acc.push_children n a) (q.pop).2) := by
  unfold HeightQueue.pop_and_push_children
  have h1 : ((q.pop).1).isEmpty = false := by
    rw [List.isEmpty_eq_false]
    exact pop_fst_ne_nil h
  simp only [h1]
  simp

lemma mem_le_foldr_max : ∀ (l : List Nat) (x : Nat), x ∈ l → x ≤ l.foldr max 0 := by
  intro l
  induction l with
  | nil => intro x hx; simp at hx
  | cons y t ih =>
    intro x hx
    rcases List.mem_cons.1 hx with rfl | hx
    · exact le_max_left _ _
    · exact le_trans (ih x hx) (le_max_right _ _)

lemma foldr_max_mem_or_zero : ∀ l : List Nat, l.foldr max 0 = 0 ∨ l.foldr max 0 ∈ l := by
  intro l
  induction l with
  | nil => left; rfl
  | cons y t ih =>
    by_cases hy : t.foldr max 0 ≤ y
    · right
      rw [List.foldr_cons, max_eq_left hy]
      simp
    · rcases ih with h0 | hmem
      · exfalso; omega
      · right
        rw [List.foldr_cons, max_eq_right (by omega)]
        exact List.mem_cons_of_mem _ hmem

lemma consistent_child_lt {a : Arena} (ha : a.consistent) : a.childLt := by
  intro n c hc
  have h1 : a.height c + 1 ∈ (a.children n).map fun c' => a.height c' + 1 :=
    List.mem_map.2 ⟨c, hc, rfl⟩
  have h2 := mem_le_foldr_max _ _ h1
  rw [← ha n] at h2
  omega

lemma consistent_exists_child {a : Arena} (ha : a.consistent) {n m : Nat}
    (h : a.height n = m + 1) : ∃ c ∈ a.children n, a.height c = m := by
  have h1 := ha n
  rw [h] at h1
  rcases foldr_max_mem_or_zero ((a.children n).map fun c => a.height c + 1) with h2 | h2
  · rw [← h1] at h2; omega
  · rw [← h1] at h2
    obtain ⟨c, hc, hce⟩ := List.mem_map.1 h2
    exact ⟨c, hc, by omega⟩

lemma peek_some_ne_nil {q : HeightQueue} {m : Nat} (hm : q.peek_max = some m) :
    q.queue ≠ [] := by
  intro h
  rw [← peek_max_eq_none_iff] at h
  rw [hm] at h
  simp at h

lemma pop_rest_lt {q : HeightQueue} (hs : SortedQ q) {m : Nat}
    (hm : q.peek_max = some m) : ∀ e ∈ (q.pop).2.queue, e.height < m := by
  intro e he
  rw [(pop_spec hs hm).2] at he
  have h1 := List.mem_filter.1 he
  have h2 : e.height ≤ m := sorted_bound_of_peek hs hm e h1.1
  have h3 : e.height ≠ m := by
    have := h1.2
    simp at this
    exact this
  omega

lemma pop_fst_heights {q : HeightQueue} (hs : SortedQ q) {m : Nat}
    (hm : q.peek_max = some m) :
    ∀ n ∈ (q.pop).1, ∃ e ∈ q.queue, e.index = n ∧ e.height = m := by
  intro n hn
  rw [(pop_spec hs hm).1] at hn
  obtain ⟨e, he, hen⟩ := List.mem_map.1 hn
  rw [List.mem_reverse] at he
  have h1 := List.mem_filter.1 he
  refine ⟨e, h1.1, hen, ?_⟩
  have := h1.2
  simpa using this

lemma expand_lt {a : Arena} (ha : a.childLt) {q : HeightQueue} (hs : SortedQ q)
    (hc : Consistent a q) {m : Nat} (hm : q.peek_max = some m) :
    SortedQ (q.pop_and_push_children a).2 ∧
    Consistent a (q.pop_and_push_children a).2 ∧
    ∀ e ∈ (q.pop_and_push_children a).2.queue, e.height < m := by
  have hne : q.queue ≠ [] := peek_some_ne_nil hm
  rw [papc_nonempty hne]
  have htall : ∀ n ∈ (q.pop).1, a.height n = m := by
    intro n hn
    obtain ⟨e, he, hei, heh⟩ := pop_fst_heights hs hm n hn
    have := hc e he
    rw [hei, heh] at this
    exact this.symm
  have hstep : ∀ q' n, n ∈ (q.pop).1 →
      (SortedQ q' ∧ Consistent a q' ∧ ∀ e ∈ q'.queue, e.height < m) →
      (SortedQ (q'.push_children n a) ∧ Consistent a (q'.push_children n a) ∧
       ∀ e ∈ (q'.push_children n a).queue, e.height < m) := by
    intro q' n hn ⟨h1, h2, h3⟩
    refine ⟨push_children_sorted h1, push_children_consistent h2, ?_⟩
    exact push_children_heightP (P := fun h => h < m) h3 fun c hcc => by
      have := ha n c hcc
      rw [htall n hn] at this
      exact this
  exact foldl_pres _ _ hstep
    ⟨pop_rest_sorted hs, pop_rest_consistent hc, pop_rest_lt hs hm⟩

lemma expand_exact {a : Arena} (ha : a.consistent) {q : HeightQueue} (hs : SortedQ q)
    (hc : Consistent a q) {m : Nat} (hm : q.peek_max = some m) (hm1 : 1 ≤ m) :
    SortedQ (q.pop_and_push_children a).2 ∧
    Consistent a (q.pop_and_push_children a).2 ∧
    (q.pop_and_push_children a).2.peek_max = some (m - 1) := by
  have halt := consistent_child_lt ha
  have hne : q.queue ≠ [] := peek_some_ne_nil hm
  obtain ⟨h1, h2, h3⟩ := expand_lt halt hs hc hm
  refine ⟨h1, h2, ?_⟩
  have hb : ∀ e ∈ (q.pop_and_push_children a).2.queue, e.height ≤ m - 1 := by
    intro e he
    have := h3 e he
    omega
  -- some entry of height m - 1 is present: the first popped node has arena
  -- height m ≥ 1, so it has a child of height exactly m - 1.
  obtain ⟨n0, t, ht⟩ : ∃ n0 t, (q.pop).1 = n0 :: t := by
    cases hc0 : (q.pop).1 with
    | nil => exact absurd hc0 (pop_fst_ne_nil hne)
    | cons n0 t => exact ⟨n0, t, rfl⟩
  have hn0 : a.height n0 = m := by
    obtain ⟨e, he, hei, heh⟩ := pop_fst_heights hs hm n0 (by rw [ht]; simp)
    have := hc e he
    rw [hei, heh] at this
    exact this.symm
  obtain ⟨c0, hc0m, hc0h⟩ : ∃ c ∈ a.children n0, a.height c = m - 1 := by
    refine consistent_exists_child ha ?_
    rw [hn0]
    omega
  have hmem : (⟨c0, a.height c0⟩ : PriorityNodeId) ∈
      (q.pop_and_push_children a).2.queue := by
    rw [papc_nonempty hne, ht, List.foldl_cons]
    refine foldl_pres (P := fun q' => (⟨c0, a.height c0⟩ : PriorityNodeId) ∈ q'.queue)
      t _ (fun _ _ _ h => push_children_superset h) ?_
    exact push_children_attains (pop_rest_sorted hs) hc0m
  exact peek_max_of_bounds h1 ⟨⟨c0, a.height c0⟩, hmem, by rw [hc0h]⟩ hb

lemma match_heights_stop {sa da : Arena} {fuel : Nat} {sq dq : HeightQueue}
    (h : sq.is_empty = true ∨ dq.is_empty = true ∨ sq.peek_max = dq.peek_max) :
    match_heights sa da fuel sq dq = some (sq, dq) := by
  cases fuel with
  | zero => simp only [match_heights]; rw [if_pos h]
  | succ f => simp only [match_heights]; rw [if_pos h]

lemma match_heights_step_src {sa da : Arena} {f : Nat} {sq dq : HeightQueue}
    (h : ¬(sq.is_empty = true ∨ dq.is_empty = true ∨ sq.peek_max = dq.peek_max))
    (hgt : sq.peek_max.getD 0 > dq.peek_max.getD 0) :
    match_heights sa da (f + 1) sq dq =
      match_heights sa da f (sq.pop_and_push_children sa).2 dq := by
  simp only [match_heights]
  rw [if_neg h, if_pos hgt]

lemma match_heights_step_dst {sa da : Arena} {f : Nat} {sq dq : HeightQueue}
    (h : ¬(sq.is_empty = true ∨ dq.is_empty = true ∨ sq.peek_max = dq.peek_max))
    (hgt : ¬sq.peek_max.getD 0 > dq.peek_max.getD 0) :
    match_heights sa da (f + 1) sq dq =
      match_heights sa da f sq (dq.pop_and_push_children da).2 := by
  simp only [match_heights]
  rw [if_neg h, if_neg hgt]

lemma guard_false_elim {sq dq : HeightQueue}
    (h : ¬(sq.is_empty = true ∨ dq.is_empty = true ∨ sq.peek_max = dq.peek_max)) :
    ∃ x y, sq.peek_max = some x ∧ dq.peek_max = some y ∧ x ≠ y := by
  push_neg at h
  obtain ⟨h1, h2, h3⟩ := h
  have hne1 : sq.queue ≠ [] := by
    intro hh; exact h1 (is_empty_true_iff sq |>.2 hh)
  have hne2 : dq.queue ≠ [] := by
    intro hh; exact h2 (is_empty_true_iff dq |>.2 hh)
  cases hx : sq.peek_max with
  | none => exact absurd (peek_max_eq_none_iff.1 hx) hne1
  | some x =>
    cases hy : dq.peek_max with
    | none => exact absurd (peek_max_eq_none_iff.1 hy) hne2
    | some y =>
      refine ⟨x, y, rfl, rfl, ?_⟩
      intro he
      rw [hx, hy, he] at h3
      exact h3 rfl

lemma guard_false_intro {sq dq : HeightQueue} {x y : Nat} (hx : sq.peek_max = some x)
    (hy : dq.peek_max = some y) (hxy : x ≠ y) :
    ¬(sq.is_empty = true ∨ dq.is_empty = true ∨ sq.peek_max = dq.peek_max) := by
  intro h
  rcases h with h | h | h
  · have := peek_max_eq_none_iff.2 (is_empty_true_iff sq |>.1 h)
    rw [hx] at this; simp at this
  · have := peek_max_eq_none_iff.2 (is_empty_true_iff dq |>.1 h)
    rw [hy] at this; simp at this
  · rw [hx, hy] at h
    exact hxy (Option.some.inj h)

lemma peekD_lt_of_heights {q : HeightQueue} (_hs : SortedQ q) {m : Nat} (hm1 : 1 ≤ m)
    (hb : ∀ e ∈ q.queue, e.height < m) : q.peek_max.getD 0 < m := by
  cases hp : q.peek_max with
  | none => simpa using hm1
  | some z =>
    obtain ⟨e, he, hez⟩ := peek_max_attained hp
    have := hb e he
    simp only [Option.getD_some]
    omega

lemma mh_total {sa da : Arena} (hsa : sa.childLt) (hda : da.childLt) :
    ∀ (μ : Nat) (sq dq : HeightQueue), SortedQ sq → Consistent sa sq → SortedQ dq →
    Consistent da dq → sq.peek_max.getD 0 + dq.peek_max.getD 0 ≤ μ →
    ∃ r, match_heights sa da μ sq dq = some r := by
  intro μ
  induction μ with
  | zero =>
    intro sq dq _ _ _ _ hsum
    by_cases hg : sq.is_empty = true ∨ dq.is_empty = true ∨ sq.peek_max = dq.peek_max
    · exact ⟨(sq, dq), match_heights_stop hg⟩
    · exfalso
      obtain ⟨x, y, hx, hy, hxy⟩ := guard_false_elim hg
      rw [hx, hy] at hsum
      simp at hsum
      omega
  | succ k ih =>
    intro sq dq hs1 hc1 hs2 hc2 hsum
    by_cases hg : sq.is_empty = true ∨ dq.is_empty = true ∨ sq.peek_max = dq.peek_max
    · exact ⟨(sq, dq), match_heights_stop hg⟩
    · obtain ⟨x, y, hx, hy, hxy⟩ := guard_false_elim hg
      rw [hx, hy] at hsum
      simp only [Option.getD_some] at hsum
      by_cases hgt : sq.peek_max.getD 0 > dq.peek_max.getD 0
      · rw [match_heights_step_src hg hgt]
        rw [hx, hy] at hgt
        simp only [Option.getD_some] at hgt
        obtain ⟨hS, hC, hlt⟩ := expand_lt hsa hs1 hc1 hx
        have hb : (sq.pop_and_push_children sa).2.peek_max.getD 0 < x :=
          peekD_lt_of_heights hS (by omega) hlt
        refine ih _ dq hS hC hs2 hc2 ?_
        rw [hy]
        simp only [Option.getD_some]
        omega
      · rw [match_heights_step_dst hg hgt]
        rw [hx, hy] at hgt
        simp only [Option.getD_some] at hgt
        have hylt : x < y := by omega
        obtain ⟨hS, hC, hlt⟩ := expand_lt hda hs2 hc2 hy
        have hb : (dq.pop_and_push_children da).2.peek_max.getD 0 < y :=
          peekD_lt_of_heights hS (by omega) hlt
        refine ih sq _ hs1 hc1 hS hC ?_
        rw [hx]
        simp only [Option.getD_some]
        omega

lemma mh_converge {sa da : Arena} (hsa : sa.consistent) (hda : da.consistent) :
    ∀ (d : Nat) (sq dq : HeightQueue) (x y : Nat), SortedQ sq → Consistent sa sq →
    SortedQ dq → Consistent da dq → sq.peek_max = some x → dq.peek_max = some y →
    (x - y) + (y - x) ≤ d →
    ∃ sq' dq', match_heights sa da d sq dq = some (sq', dq') ∧
      sq'.peek_max = some (min x y) ∧ dq'.peek_max = some (min x y) := by
  intro d
  induction d with
  | zero =>
    intro sq dq x y _ _ _ _ hx hy hd
    have hxy : x = y := by omega
    subst hxy
    refine ⟨sq, dq, match_heights_stop (Or.inr (Or.inr (by rw [hx, hy]))), ?_, ?_⟩
    · rw [hx]; simp
    · rw [hy]; simp
  | succ k ih =>
    intro sq dq x y hs1 hc1 hs2 hc2 hx hy hd
    by_cases hxy : x = y
    · subst hxy
      refine ⟨sq, dq, match_heights_stop (Or.inr (Or.inr (by rw [hx, hy]))), ?_, ?_⟩
      · rw [hx]; simp
      · rw [hy]; simp
    · have hg := guard_false_intro hx hy hxy
      by_cases hlt : y < x
      · have hgt : sq.peek_max.getD 0 > dq.peek_max.getD 0 := by
          rw [hx, hy]; simpa using hlt
        rw [match_heights_step_src hg hgt]
        obtain ⟨hS, hC, hpk⟩ := expand_exact hsa hs1 hc1 hx (by omega)
        obtain ⟨sq', dq', hr, hp1, hp2⟩ :=
          ih _ dq (x - 1) y hS hC hs2 hc2 hpk hy (by omega)
        have hmin : min (x - 1) y = min x y := by omega
        rw [hmin] at hp1 hp2
        exact ⟨sq', dq', hr, hp1, hp2⟩
      · have hxlty : x < y := by omega
        have hgt : ¬sq.peek_max.getD 0 > dq.peek_max.getD 0 := by
          rw [hx, hy]; simpa using le_of_lt hxlty
        rw [match_heights_step_dst hg hgt]
        obtain ⟨hS, hC, hpk⟩ := expand_exact hda hs2 hc2 hy (by omega)
        obtain ⟨sq', dq', hr, hp1, hp2⟩ :=
          ih sq _ x (y - 1) hs1 hc1 hS hC hx hpk (by omega)
        have hmin : min x (y - 1) = min x y := by omega
        rw [hmin] at hp1 hp2
        exact ⟨sq', dq', hr, hp1, hp2⟩

lemma papc_sorted {q : HeightQueue} {a : Arena} (hs : SortedQ q) :
    SortedQ (q.pop_and_push_children a).2 := by
  by_cases h : q.queue = []
  · rw [papc_empty h]; exact hs
  · rw [papc_nonempty h]
    exact foldl_pres _ _ (fun _ _ _ h' => push_children_sorted h') (pop_rest_sorted hs)

lemma papc_consistent {q : HeightQueue} {a : Arena} (hc : Consistent a q) :
    Consistent a (q.pop_and_push_children a).2 := by
  by_cases h : q.queue = []
  · rw [papc_empty h]; exact hc
  · rw [papc_nonempty h]
    exact foldl_pres _ _ (fun _ _ _ h' => push_children_consistent h')
      (pop_rest_consistent hc)

lemma new_sorted : SortedQ HeightQueue.new := List.Pairwise.nil

lemma clear_sorted (q : HeightQueue) : SortedQ q.clear := List.Pairwise.nil

lemma reachable_invariant {a : Arena} {q : HeightQueue} (h : Reachable a q) :
    SortedQ q := by
  induction h with
  | base => exact new_sorted
  | push q idx _ ih => exact push_sorted ih
  | push_children q n _ ih => exact push_children_sorted ih
  | pop q _ ih => exact pop_rest_sorted ih
  | pop_push q _ ih => exact papc_sorted ih
  | clear q _ _ => exact clear_sorted q

lemma push_reachable_invariant {a : Arena} {q : HeightQueue} (h : PushReachable a q) :
    SortedQ q ∧ Consistent a q ∧ (q.queue.map fun e => e.index).Nodup := by
  induction h with
  | base =>
    refine ⟨new_sorted, ?_, ?_⟩
    · intro e he; simp [HeightQueue.new] at he
    · simp [HeightQueue.new]
  | push q idx _ ih =>
    obtain ⟨h1, h2, h3⟩ := ih
    refine ⟨push_sorted h1, push_consistent h2, ?_⟩
    by_cases hmem : (⟨idx, a.height idx⟩ : PriorityNodeId) ∈ q.queue
    · rw [push_mem_eq hmem]; exact h3
    · have hperm := (push_perm h1 hmem).map fun e => e.index
      rw [hperm.nodup_iff]
      rw [List.map_cons, List.nodup_cons]
      refine ⟨?_, h3⟩
      intro hcontra
      obtain ⟨e, he, hei⟩ := List.mem_map.1 hcontra
      have heh : e.height = a.height idx := by rw [h2 e he, hei]
      have : e = ⟨idx, a.height idx⟩ := by
        cases e
        simp at hei heh
        simp [hei, heh]
      rw [this] at he
      exact hmem he

lemma sorted_head_min {q : HeightQueue} (hs : SortedQ q) {x : PriorityNodeId}
    (hx : q.queue.head? = some x) : ∀ e ∈ q.queue, x.height ≤ e.height := by
  intro e he
  cases hq : q.queue with
  | nil => rw [hq] at he; simp at he
  | cons b t =>
    rw [hq] at hx
    simp at hx
    subst hx
    unfold SortedQ at hs
    rw [hq] at hs he
    rcases List.mem_cons.1 he with rfl | he
    · exact le_refl _
    · exact (List.pairwise_cons.1 hs).1 e he

lemma popTiersAux_spec :
    ∀ (fuel : Nat) (q : HeightQueue), SortedQ q → q.queue.length ≤ fuel →
    (((popTiersAux fuel q).map Prod.fst).Chain' (· > ·)) ∧
    (((popTiersAux fuel q).map Prod.snd).flatten.Perm
      (q.queue.map fun e => e.index)) := by
  intro fuel
  induction fuel with
  | zero =>
    intro q _ hlen
    have hq : q.queue = [] := by
      cases hq : q.queue with
      | nil => rfl
      | cons b t => rw [hq] at hlen; simp at hlen
    simp [popTiersAux, hq]
  | succ f ih =>
    intro q hs hlen
    by_cases hq : q.queue = []
    · simp [popTiersAux, hq]
    · have hm : ∃ m, q.peek_max = some m := by
        cases hp : q.peek_max with
        | none => exact absurd (peek_max_eq_none_iff.1 hp) hq
        | some m => exact ⟨m, rfl⟩
      obtain ⟨m, hm⟩ := hm
      have hrest_len : (q.pop).2.queue.length ≤ f := by
        have := pop_rest_length_lt hq
        omega
      have hrest_sorted := pop_rest_sorted hs
      obtain ⟨ihc, ihp⟩ := ih (q.pop).2 hrest_sorted hrest_len
      have hunfold : popTiersAux (f + 1) q =
          (q.peek_max.getD 0, (q.pop).1) :: popTiersAux f (q.pop).2 := by
        simp only [popTiersAux, if_neg hq]
      rw [hunfold]
      constructor
      · rw [List.map_cons, List.chain'_cons']
        refine ⟨?_, ihc⟩
        intro y hy
        -- the head of the remaining tiers is the next peek_max, attained by
        -- some remaining entry, all of which sit strictly below m
        cases hq1 : (q.pop).2.queue with
        | nil =>
          rw [show popTiersAux f (q.pop).2 = [] from ?_] at hy
          · simp at hy
          · cases f with
            | zero => rfl
            | succ f' => simp only [popTiersAux, if_pos hq1]
        | cons b t =>
          have hne1 : (q.pop).2.queue ≠ [] := by rw [hq1]; simp
          have hm1 : ∃ m1, (q.pop).2.peek_max = some m1 := by
            cases hp : (q.pop).2.peek_max with
            | none => exact absurd (peek_max_eq_none_iff.1 hp) hne1
            | some m1 => exact ⟨m1, rfl⟩
          obtain ⟨m1, hm1⟩ := hm1
          have hy2 : y = m1 := by
            cases f with
            | zero => rw [hq1] at hrest_len; simp at hrest_len
            | succ f' =>
              have : popTiersAux (f' + 1) (q.pop).2 =
                  ((q.pop).2.peek_max.getD 0, ((q.pop).2.pop).1) ::
                    popTiersAux f' ((q.pop).2.pop).2 := by
                simp only [popTiersAux, if_neg hne1]
              rw [this] at hy
              simp only [List.map_cons, List.head?_cons, Option.mem_def,
                Option.some.injEq] at hy
              rw [hm1] at hy
              simpa using hy.symm
          obtain ⟨e, he, hem⟩ := peek_max_attained hm1
          have hlt := pop_rest_lt hs hm e he
          have hmD : q.peek_max.getD 0 = m := by rw [hm]; rfl
          rw [hmD, hy2]
          omega
      · rw [List.map_cons, List.flatten_cons]
        have h1 : (q.pop).1.Perm ((q.queue.filter fun e => e.height == m).map
            fun e => e.index) := by
          rw [(pop_spec hs hm).1]
          exact (List.reverse_perm _).map _
        have h2 : (q.pop).2.queue.map (fun e => e.index) =
            (q.queue.filter fun e => !(e.height == m)).map fun e => e.index := by
          rw [(pop_spec hs hm).2]
        have h3 := h1.append (h2 ▸ ihp)
        refine h3.trans ?_
        rw [← List.map_append]
        exact (List.filter_append_perm _ _).map _

lemma mhOnce_id {sa da : Arena} {s : HeightQueue × HeightQueue}
    (hg : s.1.is_empty = true ∨ s.2.is_empty = true ∨ s.1.peek_max = s.2.peek_max) :
    mhOnce sa da s = s := by
  unfold mhOnce
  rw [if_pos hg]

lemma mhOnce_src {sa da : Arena} {s : HeightQueue × HeightQueue}
    (hg : ¬(s.1.is_empty = true ∨ s.2.is_empty = true ∨ s.1.peek_max = s.2.peek_max))
    (hgt : s.1.peek_max.getD 0 > s.2.peek_max.getD 0) :
    mhOnce sa da s = ((s.1.pop_and_push_children sa).2, s.2) := by
  unfold mhOnce
  rw [if_neg hg, if_pos hgt]

lemma mhOnce_dst {sa da : Arena} {s : HeightQueue × HeightQueue}
    (hg : ¬(s.1.is_empty = true ∨ s.2.is_empty = true ∨ s.1.peek_max = s.2.peek_max))
    (hgt : ¬s.1.peek_max.getD 0 > s.2.peek_max.getD 0) :
    mhOnce sa da s = (s.1, (s.2.pop_and_push_children da).2) := by
  unfold mhOnce
  rw [if_neg hg, if_neg hgt]

lemma mhOnce_inv {sa da : Arena} {s : HeightQueue × HeightQueue}
    (h1 : SortedQ s.1) (h2 : Consistent sa s.1) (h3 : SortedQ s.2)
    (h4 : Consistent da s.2) :
    SortedQ (mhOnce sa da s).1 ∧ Consistent sa (mhOnce sa da s).1 ∧
    SortedQ (mhOnce sa da s).2 ∧ Consistent da (mhOnce sa da s).2 := by
  by_cases hg : s.1.is_empty = true ∨ s.2.is_empty = true ∨ s.1.peek_max = s.2.peek_max
  · rw [mhOnce_id hg]; exact ⟨h1, h2, h3, h4⟩
  · by_cases hgt : s.1.peek_max.getD 0 > s.2.peek_max.getD 0
    · rw [mhOnce_src hg hgt]
      exact ⟨papc_sorted h1, papc_consistent h2, h3, h4⟩
    · rw [mhOnce_dst hg hgt]
      exact ⟨h1, h2, papc_sorted h3, papc_consistent h4⟩

lemma mhIter_inv {sa da : Arena} {sq dq : HeightQueue} (h1 : SortedQ sq)
    (h2 : Consistent sa sq) (h3 : SortedQ dq) (h4 : Consistent da dq) :
    ∀ n, SortedQ (mhIter sa da n (sq, dq)).1 ∧
      Consistent sa (mhIter sa da n (sq, dq)).1 ∧
      SortedQ (mhIter sa da n (sq, dq)).2 ∧
      Consistent da (mhIter sa da n (sq, dq)).2 := by
  intro n
  induction n with
  | zero => exact ⟨h1, h2, h3, h4⟩
  | succ k ih => exact mhOnce_inv ih.1 ih.2.1 ih.2.2.1 ih.2.2.2

lemma mhOnce_step {sa da : Arena} (hsa : sa.childLt) (hda : da.childLt)
    {s : HeightQueue × HeightQueue} (h1 : SortedQ s.1) (h2 : Consistent sa s.1)
    (h3 : SortedQ s.2) (h4 : Consistent da s.2) :
    ((mhOnce sa da s).1.peek_max.getD 0 ≤ s.1.peek_max.getD 0) ∧
    ((mhOnce sa da s).2.peek_max.getD 0 ≤ s.2.peek_max.getD 0) ∧
    (∀ x y, s.1.peek_max = some x → s.2.peek_max = some y → x ≠ y →
      (x > y → (mhOnce sa da s).2 = s.2 ∧ (mhOnce sa da s).1.peek_max.getD 0 < x) ∧
      (y > x → (mhOnce sa da s).1 = s.1 ∧ (mhOnce sa da s).2.peek_max.getD 0 < y)) := by
  by_cases hg : s.1.is_empty = true ∨ s.2.is_empty = true ∨ s.1.peek_max = s.2.peek_max
  · rw [mhOnce_id hg]
    refine ⟨le_refl _, le_refl _, ?_⟩
    intro x y hx hy hxy
    exact absurd hg (guard_false_intro hx hy hxy)
  · obtain ⟨x0, y0, hx0, hy0, hxy0⟩ := guard_false_elim hg
    by_cases hgt : s.1.peek_max.getD 0 > s.2.peek_max.getD 0
    · rw [mhOnce_src hg hgt]
      rw [hx0, hy0] at hgt
      simp only [Option.getD_some] at hgt
      obtain ⟨hS, _, hlt⟩ := expand_lt hsa h1 h2 hx0
      have hfall : (s.1.pop_and_push_children sa).2.peek_max.getD 0 < x0 :=
        peekD_lt_of_heights hS (by omega) hlt
      refine ⟨?_, le_refl _, ?_⟩
      · rw [hx0]
        simp only [Option.getD_some]
        omega
      · intro x y hx hy hxy
        rw [hx0] at hx
        rw [hy0] at hy
        have hxx : x = x0 := (Option.some.inj hx).symm
        have hyy : y = y0 := (Option.some.inj hy).symm
        subst hxx
        subst hyy
        refine ⟨fun _ => ⟨rfl, hfall⟩, fun hyx => absurd hyx (by omega)⟩
    · rw [mhOnce_dst hg hgt]
      rw [hx0, hy0] at hgt
      simp only [Option.getD_some] at hgt
      obtain ⟨hS, _, hlt⟩ := expand_lt hda h3 h4 hy0
      have hfall : (s.2.pop_and_push_children da).2.peek_max.getD 0 < y0 :=
        peekD_lt_of_heights hS (by omega) hlt
      refine ⟨le_refl _, ?_, ?_⟩
      · rw [hy0]
        simp only [Option.getD_some]
        omega
      · intro x y hx hy hxy
        rw [hx0] at hx
        rw [hy0] at hy
        have hxx : x = x0 := (Option.some.inj hx).symm
        have hyy : y = y0 := (Option.some.inj hy).symm
        subst hxx
        subst hyy
        refine ⟨fun hxg => absurd hxg (by omega), fun _ => ⟨rfl, hfall⟩⟩

lemma consistent_new (a : Arena) : Consistent a HeightQueue.new := by
  intro e he
  simp [HeightQueue.new] at he

lemma seed_queue (a : Arena) (r : Nat) :
    (HeightQueue.new.push r a).queue = [⟨r, a.height r⟩] :=
  push_queue_nil (by simp [HeightQueue.new]) rfl

lemma seed_peek (a : Arena) (r : Nat) :
    (HeightQueue.new.push r a).peek_max = some (a.height r) := by
  rw [HeightQueue.peek_max, seed_queue]
  rfl


/-- Claim C1: for every HeightQueue reachable from the empty queue by any
sequence of push, push_children, pop, pop_and_push_children and clear calls
(over a fixed arena, so height values are stable), the underlying sequence
of entries is sorted ascending by height: position 0 holds a minimum-height
entry and the last position holds a maximum-height entry. -/
theorem c1_reachable_sorted {a : Arena} {q : HeightQueue} (h : Reachable a q) :
    SortedQ q ∧
    (∀ x, q.queue.head? = some x → ∀ e ∈ q.queue, x.height ≤ e.height) ∧
    (∀ x, q.queue.getLast? = some x → ∀ e ∈ q.queue, e.height ≤ x.height) := by
  have hs := reachable_invariant h
  exact ⟨hs, fun x hx => sorted_head_min hs hx,
    fun x hx => sorted_height_le_getLast hs hx⟩

theorem c1_witness :
    SortedQ (HeightQueue.new.push 1 aW) ∧
    (∀ x, (HeightQueue.new.push 1 aW).queue.head? = some x →
      ∀ e ∈ (HeightQueue.new.push 1 aW).queue, x.height ≤ e.height) ∧
    (∀ x, (HeightQueue.new.push 1 aW).queue.getLast? = some x →
      ∀ e ∈ (HeightQueue.new.push 1 aW).queue, e.height ≤ x.height) :=
  c1_reachable_sorted (Reachable.push HeightQueue.new 1 Reachable.base)

/-- Claim C2: push is idempotent per handle — pushing the same handle a
second time (with the arena, hence the height, unchanged) leaves the queue,
and hence size() and contents, unchanged — and consequently no node handle
appears twice in a queue built only by pushes over a fixed arena. -/
theorem c2_push_idempotent_dedup (a : Arena) (q : HeightQueue) (idx : Nat) :
    (q.push idx a).push idx a = q.push idx a ∧
    (PushReachable a q → (q.queue.map fun e => e.index).Nodup) :=
  ⟨push_idem q idx a, fun h => (push_reachable_invariant h).2.2⟩

theorem c2_witness :
    ((HeightQueue.new.push 0 aW).push 0 aW = HeightQueue.new.push 0 aW) ∧
    ((HeightQueue.new.push 0 aW).queue.map fun e => e.index).Nodup :=
  ⟨(c2_push_idempotent_dedup aW HeightQueue.new 0).1,
   (c2_push_idempotent_dedup aW (HeightQueue.new.push 0 aW) 0).2
     (PushReachable.push HeightQueue.new 0 PushReachable.base)⟩

/-- Claim C3: on a non-empty queue satisfying the sortedness and uniqueness
invariants, pop() returns exactly the handles whose height equals the
pre-pop maximum (peek_max), removes exactly those entries, and leaves every
remaining entry with height strictly less than that maximum. -/
theorem c3_pop_max_tier {q : HeightQueue} (hs : SortedQ q)
    (_hd : (q.queue.map fun e => e.index).Nodup) (_hne : q.queue ≠ []) {m : Nat}
    (hm : q.peek_max = some m) :
    ((q.pop).1.Perm ((q.queue.filter fun e => e.height == m).map fun e => e.index)) ∧
    ((q.pop).2.queue = q.queue.filter fun e => !(e.height == m)) ∧
    (∀ e ∈ (q.pop).2.queue, e.height < m) := by
  refine ⟨?_, (pop_spec hs hm).2, pop_rest_lt hs hm⟩
  rw [(pop_spec hs hm).1]
  exact (List.reverse_perm _).map _

theorem c3_witness :
    ((qW.pop).1.Perm ((qW.queue.filter fun e => e.height == 2).map fun e => e.index)) ∧
    ((qW.pop).2.queue = qW.queue.filter fun e => !(e.height == 2)) ∧
    (∀ e ∈ (qW.pop).2.queue, e.height < 2) :=
  c3_pop_max_tier (by unfold SortedQ; decide) (by decide) (by decide) (by decide)

/-- Claim C4: on a queue satisfying the invariants, repeated pop() calls
with no interleaved pushes yield tiers whose heights strictly decrease from
call to call until the queue is empty, and the concatenation of all popped
tiers is a permutation of the original handle set — no handle twice, none
omitted. -/
theorem c4_pop_tiers {q : HeightQueue} (hs : SortedQ q)
    (hd : (q.queue.map fun e => e.index).Nodup) :
    (((popTiers q).map Prod.fst).Chain' (· > ·)) ∧
    (((popTiers q).map Prod.snd).flatten.Perm (q.queue.map fun e => e.index)) ∧
    ((popTiers q).map Prod.snd).flatten.Nodup := by
  obtain ⟨h1, h2⟩ := popTiersAux_spec q.size q hs (le_refl _)
  exact ⟨h1, h2, h2.nodup_iff.2 hd⟩

theorem c4_witness :
    (((popTiers qW).map Prod.fst).Chain' (· > ·)) ∧
    (((popTiers qW).map Prod.snd).flatten.Perm (qW.queue.map fun e => e.index)) ∧
    ((popTiers qW).map Prod.snd).flatten.Nodup :=
  c4_pop_tiers (by unfold SortedQ; decide) (by decide)

/-- Claim C5: on a sorted queue, pushing a handle whose (handle, height)
pair is not already present inserts exactly one new entry at a position
that preserves ascending order — every entry to its left is no taller, and
every entry to its right is no shorter — and size() increases by exactly 1
(the insertion never silently fails to find a position). -/
theorem c5_push_insert {q : HeightQueue} {a : Arena} {idx : Nat} (hs : SortedQ q)
    (hnot : (⟨idx, a.height idx⟩ : PriorityNodeId) ∉ q.queue) :
    (∃ l1 l2, q.queue = l1 ++ l2 ∧
      (q.push idx a).queue = l1 ++ ⟨idx, a.height idx⟩ :: l2 ∧
      (∀ e ∈ l1, e.height ≤ a.height idx) ∧ (∀ e ∈ l2, a.height idx ≤ e.height)) ∧
    SortedQ (q.push idx a) ∧ (q.push idx a).size = q.size + 1 :=
  ⟨push_spec hs hnot, push_sorted hs, push_size hs hnot⟩

theorem c5_witness :
    (∃ l1 l2, qW.queue = l1 ++ l2 ∧
      (qW.push 7 aW).queue = l1 ++ ⟨7, aW.height 7⟩ :: l2 ∧
      (∀ e ∈ l1, e.height ≤ aW.height 7) ∧ (∀ e ∈ l2, aW.height 7 ≤ e.height)) ∧
    SortedQ (qW.push 7 aW) ∧ (qW.push 7 aW).size = qW.size + 1 :=
  c5_push_insert (by unfold SortedQ; decide) (by decide)

/-- Claim C6: for queues seeded with the roots of trees of heights H_src and
H_dst (arenas satisfying the spec's height equation), match_heights
terminates; both queues end non-empty with peek_max equal on both sides and
equal to min(H_src, H_dst) (so in particular, had a side been exhausted it
would have ended empty — exhaustion never occurs under the height
equation). -/
theorem c6_match_heights_converges {sa da : Arena} (hsa : sa.consistent)
    (hda : da.consistent) (rs rd : Nat) :
    ∃ fuel sq' dq',
      match_heights sa da fuel (HeightQueue.new.push rs sa)
        (HeightQueue.new.push rd da) = some (sq', dq') ∧
      sq'.is_empty = false ∧ dq'.is_empty = false ∧
      sq'.peek_max = some (min (sa.height rs) (da.height rd)) ∧
      dq'.peek_max = some (min (sa.height rs) (da.height rd)) := by
  have hs1 : SortedQ (HeightQueue.new.push rs sa) := push_sorted new_sorted
  have hc1 : Consistent sa (HeightQueue.new.push rs sa) :=
    push_consistent (consistent_new sa)
  have hs2 : SortedQ (HeightQueue.new.push rd da) := push_sorted new_sorted
  have hc2 : Consistent da (HeightQueue.new.push rd da) :=
    push_consistent (consistent_new da)
  obtain ⟨sq', dq', hr, hp1, hp2⟩ := mh_converge hsa hda
    ((sa.height rs - da.height rd) + (da.height rd - sa.height rs)) _ _
    (sa.height rs) (da.height rd) hs1 hc1 hs2 hc2 (seed_peek sa rs)
    (seed_peek da rd) (le_refl _)
  refine ⟨_, sq', dq', hr, ?_, ?_, hp1, hp2⟩
  · rw [is_empty_false_iff]; exact peek_some_ne_nil hp1
  · rw [is_empty_false_iff]; exact peek_some_ne_nil hp2

theorem c6_witness :
    ∃ fuel sq' dq',
      match_heights aW aW fuel (HeightQueue.new.push 0 aW)
        (HeightQueue.new.push 1 aW) = some (sq', dq') ∧
      sq'.is_empty = false ∧ dq'.is_empty = false ∧
      sq'.peek_max = some (min (aW.height 0) (aW.height 1)) ∧
      dq'.peek_max = some (min (aW.height 0) (aW.height 1)) :=
  c6_match_heights_converges
    (by
      intro n
      by_cases h : n = 0
      · subst h; decide
      · simp [aW, h])
    (by
      intro n
      by_cases h : n = 0
      · subst h; decide
      · simp [aW, h])
    0 1

/-- Claim C7: the match_heights loop terminates for every pair of sorted,
cache-consistent queues over arenas where every child's height is strictly
less than its parent's: some finite fuel makes the fuelled loop reach the
exit condition, because each iteration strictly reduces the taller queue's
maximum height or empties that queue. -/
theorem c7_match_heights_terminates {sa da : Arena} (hsa : sa.childLt)
    (hda : da.childLt) {sq dq : HeightQueue} (h1 : SortedQ sq)
    (h2 : Consistent sa sq) (h3 : SortedQ dq) (h4 : Consistent da dq) :
    ∃ fuel r, match_heights sa da fuel sq dq = some r :=
  ⟨sq.peek_max.getD 0 + dq.peek_max.getD 0,
   mh_total hsa hda (sq.peek_max.getD 0 + dq.peek_max.getD 0) sq dq h1 h2 h3 h4
     (le_refl _)⟩

theorem c7_witness : ∃ fuel r, match_heights aW aW fuel qA qB = some r :=
  c7_match_heights_terminates
    (by
      intro n c hc
      by_cases h : n = 0
      · subst h; simp [aW] at hc; subst hc; decide
      · simp [aW, h] at hc)
    (by
      intro n c hc
      by_cases h : n = 0
      · subst h; simp [aW] at hc; subst hc; decide
      · simp [aW, h] at hc)
    (by unfold SortedQ; decide) (by unfold Consistent; decide)
    (by unfold SortedQ; decide) (by unfold Consistent; decide)

/-- Claim C8: on the empty queue every operation is total and degrades
gracefully: pop() returns an empty result and leaves the queue empty,
peek_max() returns none, and pop_and_push_children returns none; no
empty-queue case is an error. -/
theorem c8_empty_total (a : Arena) :
    HeightQueue.new.pop = ([], HeightQueue.new) ∧
    HeightQueue.new.peek_max = none ∧
    HeightQueue.new.pop_and_push_children a = (none, HeightQueue.new) :=
  ⟨pop_empty rfl, rfl, papc_empty rfl⟩

/-- Claim C9: if match_heights is called with either queue empty, or with
maxima already equal (in particular both queues non-empty with equal
peek_max), the loop condition fails immediately and both queues are
returned unchanged, whatever the fuel. -/
theorem c9_match_heights_frame {sa da : Arena} {sq dq : HeightQueue}
    (h : sq.is_empty = true ∨ dq.is_empty = true ∨ sq.peek_max = dq.peek_max) :
    ∀ fuel, match_heights sa da fuel sq dq = some (sq, dq) :=
  fun _ => match_heights_stop h

theorem c9_witness :
    match_heights aW aW 3 HeightQueue.new HeightQueue.new
      = some (HeightQueue.new, HeightQueue.new) :=
  c9_match_heights_frame (Or.inl (by decide)) 3

/-- Claim C10: along any execution of the match_heights loop (arenas with
strictly decreasing child heights, sorted cache-consistent queues), neither
queue's peek_max ever increases from one iteration to the next; moreover
when the loop condition holds, the iteration leaves the shorter side
untouched and strictly lowers the taller side's maximum (to 0 if it empties
the queue). -/
theorem c10_peek_never_increases {sa da : Arena} (hsa : sa.childLt)
    (hda : da.childLt) {sq dq : HeightQueue} (h1 : SortedQ sq)
    (h2 : Consistent sa sq) (h3 : SortedQ dq) (h4 : Consistent da dq) (n : Nat) :
    ((mhIter sa da (n + 1) (sq, dq)).1.peek_max.getD 0 ≤
      (mhIter sa da n (sq, dq)).1.peek_max.getD 0) ∧
    ((mhIter sa da (n + 1) (sq, dq)).2.peek_max.getD 0 ≤
      (mhIter sa da n (sq, dq)).2.peek_max.getD 0) ∧
    (∀ x y, (mhIter sa da n (sq, dq)).1.peek_max = some x →
      (mhIter sa da n (sq, dq)).2.peek_max = some y → x ≠ y →
      (x > y → (mhIter sa da (n + 1) (sq, dq)).2 = (mhIter sa da n (sq, dq)).2 ∧
        (mhIter sa da (n + 1) (sq, dq)).1.peek_max.getD 0 < x) ∧
      (y > x → (mhIter sa da (n + 1) (sq, dq)).1 = (mhIter sa da n (sq, dq)).1 ∧
        (mhIter sa da (n + 1) (sq, dq)).2.peek_max.getD 0 < y)) := by
  obtain ⟨i1, i2, i3, i4⟩ := mhIter_inv h1 h2 h3 h4 n
  exact mhOnce_step hsa hda i1 i2 i3 i4

theorem c10_witness :
    ((mhIter aW aW 1 (qA, qB)).1.peek_max.getD 0 ≤
      (mhIter aW aW 0 (qA, qB)).1.peek_max.getD 0) ∧
    ((mhIter aW aW 1 (qA, qB)).2.peek_max.getD 0 ≤
      (mhIter aW aW 0 (qA, qB)).2.peek_max.getD 0) ∧
    (∀ x y, (mhIter aW aW 0 (qA, qB)).1.peek_max = some x →
      (mhIter aW aW 0 (qA, qB)).2.peek_max = some y → x ≠ y →
      (x > y → (mhIter aW aW 1 (qA, qB)).2 = (mhIter aW aW 0 (qA, qB)).2 ∧
        (mhIter aW aW 1 (qA, qB)).1.peek_max.getD 0 < x) ∧
      (y > x → (mhIter aW aW 1 (qA, qB)).1 = (mhIter aW aW 0 (qA, qB)).1 ∧
        (mhIter aW aW 1 (qA, qB)).2.peek_max.getD 0 < y)) :=
  c10_peek_never_increases
    (by
      intro n c hc
      by_cases h : n = 0
      · subst h; simp [aW] at hc; subst hc; decide
      · simp [aW, h] at hc)
    (by
      intro n c hc
      by_cases h : n = 0
      · subst h; simp [aW] at hc; subst hc; decide
      · simp [aW, h] at hc)
    (by unfold SortedQ; decide) (by unfold Consistent; decide)
    (by unfold SortedQ; decide) (by unfold Consistent; decide) 0
